import Mathlib

/-!
Verification development for the bombardier HTTP load generator.

The Go source is shallowly embedded: concurrent histograms become
association lists of (key, count) pairs, `float64` arithmetic is modelled
by exact rationals, straight-line statement sequences become pure state
transformers or explicit action traces, and the worker pool becomes a
small-step transition relation over an engine state.
-/

/-! ## Histogram model

`uhist.Histogram` (uint64 keys to uint64 counts) is modelled as a list of
(key, count) pairs.  Per the histogram contract, a snapshot traversal
(`VisitAll`) yields every key with count > 0 exactly once; `histWF`
captures that contract for a concrete list. -/

abbrev UHist : Type := List (ℕ × ℕ)

/-- `h.Get k`: the stored count for key `k` (0 when absent). -/
def histGet (h : UHist) (k : ℕ) : ℕ :=
  ((h.filter (fun e => e.1 = k)).map Prod.snd).sum

/-- The keys visited by `VisitAll`, in visit order. -/
def histKeys (h : UHist) : List ℕ := h.map Prod.fst

/-- `totalCount` as accumulated by the `VisitAll` pass of `latenciesPercentile`. -/
def histTotalCount (h : UHist) : ℕ := (h.map Prod.snd).sum

/-- Histogram snapshot contract: every key appears once, counts are positive. -/
def histWF (h : UHist) : Prop :=
  (histKeys h).Nodup ∧ ∀ e ∈ h, 0 < e.2

instance histWF.decidable (h : UHist) : Decidable (histWF h) := by
  unfold histWF; infer_instance

/-! ## latenciesPercentile (bombardier.go) -/

/-- The collected keys after `sort.Slice(keys, keys[i] < keys[j])`. -/
def sortedKeys (h : UHist) : List ℕ :=
  (histKeys h).insertionSort (· ≤ ·)

/-- `rank := uint64((p/100.0)*float64(totalCount) + 0.5)`, with `float64`
arithmetic modelled by exact rationals. -/
def rankOf (p : ℚ) (total : ℕ) : ℕ :=
  (⌊p / 100 * (total : ℚ) + 1 / 2⌋).toNat

/-- The accumulation loop of `latenciesPercentile`: walk `keys`, adding
`h.Get(k)` into `acc`, returning the first key whose running total
reaches `rank`; 0 when the loop falls through. -/
def percentileWalk (h : UHist) (rank : ℕ) : List ℕ → ℕ → ℕ
  | [], _ => 0
  | k :: ks, acc =>
    if rank ≤ acc + histGet h k then k else percentileWalk h rank ks (acc + histGet h k)

/-- `latenciesPercentile` from bombardier.go: collect keys and total count,
sort ascending, compute the rank, accumulate counts over sorted keys. -/
def latenciesPercentile (h : UHist) (p : ℚ) : ℕ :=
  percentileWalk h (rankOf p (histTotalCount h)) (sortedKeys h) 0

/-! Spec-side percentile, written after the specification text: collect the
distinct keys with count > 0, sort them ascending, compute
`rank = floor(p/100 * total_count + 0.5)`, and return the first key whose
cumulative count (the counts of all sorted keys up to and including it)
reaches the rank; 0 when the total count is zero. -/

/-- Cumulative count of `k` among `keys`: the counts of every key
up to and including `k` in the ascending order. -/
def cumulativeCount (h : UHist) (keys : List ℕ) (k : ℕ) : ℕ :=
  ((keys.takeWhile (· ≤ k)).map (histGet h)).sum

/-- Percentile as the specification words it. -/
def specLatenciesPercentile (h : UHist) (p : ℚ) : ℕ :=
  match (sortedKeys h).find?
      (fun k => decide (rankOf p (histTotalCount h) ≤ cumulativeCount h (sortedKeys h) k)) with
  | some k => k
  | none => 0

theorem find?_congrOn {α : Type} (p q : α → Bool) :
    ∀ l : List α, (∀ a ∈ l, p a = q a) → l.find? p = l.find? q := by
  intro l
  induction l with
  | nil => intro _; rfl
  | cons x xs ih =>
    intro hpq
    have hx : p x = q x := hpq x (List.mem_cons_self x xs)
    simp only [List.find?]
    rw [hx]
    cases q x with
    | true => rfl
    | false => exact ih fun a ha => hpq a (List.mem_cons_of_mem x ha)

theorem takeWhile_nil_of_forall_lt {k : ℕ} :
    ∀ l : List ℕ, (∀ x ∈ l, k < x) → l.takeWhile (· ≤ k) = [] := by
  intro l hl
  cases l with
  | nil => rfl
  | cons x xs =>
    have : ¬ (x ≤ k) := not_le.mpr (hl x (List.mem_cons_self x xs))
    simp [List.takeWhile, this]

theorem percentileWalk_eq_find (h : UHist) (rank : ℕ) :
    ∀ (s : List ℕ), s.Pairwise (· < ·) → ∀ acc : ℕ,
      percentileWalk h rank s acc =
        (match s.find? (fun k => decide (rank ≤ acc + cumulativeCount h s k)) with
          | some k => k
          | none => 0) := by
  intro s
  induction s with
  | nil => intro _ acc; rfl
  | cons k ks ih =>
    intro hs acc
    have hks : ∀ x ∈ ks, k < x := fun x hx => (List.pairwise_cons.mp hs).1 x hx
    have hcum_head : cumulativeCount h (k :: ks) k = histGet h k := by
      unfold cumulativeCount
      have h1 : (k :: ks).takeWhile (· ≤ k) = [k] := by
        simp only [List.takeWhile]
        simp [takeWhile_nil_of_forall_lt ks hks]
      rw [h1]; simp
    have hcum_tail : ∀ x ∈ ks,
        cumulativeCount h (k :: ks) x = histGet h k + cumulativeCount h ks x := by
      intro x hx
      unfold cumulativeCount
      have hkx : k ≤ x := le_of_lt (hks x hx)
      simp only [List.takeWhile]
      simp [hkx]
    unfold percentileWalk
    by_cases hcase : rank ≤ acc + histGet h k
    · have : (fun k' => decide (rank ≤ acc + cumulativeCount h (k :: ks) k')) k = true := by
        simp [hcum_head, hcase]
      simp only [List.find?, this]
      simp [hcase]
    · have hfalse : (fun k' => decide (rank ≤ acc + cumulativeCount h (k :: ks) k')) k = false := by
        simp [hcum_head, hcase]
      simp only [List.find?, hfalse]
      rw [if_neg hcase]
      rw [ih (List.pairwise_cons.mp hs).2 (acc + histGet h k)]
      have hpred : ∀ x ∈ ks,
          (fun k' => decide (rank ≤ acc + cumulativeCount h (k :: ks) k')) x =
          (fun k' => decide (rank ≤ acc + histGet h k + cumulativeCount h ks k')) x := by
        intro x hx
        simp only [hcum_tail x hx, Nat.add_assoc]
      rw [find?_congrOn _ _ ks hpred]

theorem sortedKeys_sorted (h : UHist) : (sortedKeys h).Sorted (· ≤ ·) :=
  List.sorted_insertionSort (· ≤ ·) (histKeys h)

theorem sortedKeys_perm (h : UHist) : List.Perm (sortedKeys h) (histKeys h) :=
  List.perm_insertionSort (· ≤ ·) (histKeys h)

theorem sortedKeys_pairwise_lt (h : UHist) (hw : histWF h) :
    (sortedKeys h).Pairwise (· < ·) := by
  have hnd : (sortedKeys h).Nodup := ((sortedKeys_perm h).nodup_iff).mpr hw.1
  have hle : (sortedKeys h).Pairwise (· ≤ ·) := sortedKeys_sorted h
  have := hle.and hnd
  exact this.imp (fun hab => lt_of_le_of_ne hab.1 hab.2)

/-- C2: `latenciesPercentile` computes exactly the spec's procedure: distinct
keys with positive count, sorted ascending; rank `floor(p/100*total+0.5)`;
first key whose cumulative count reaches the rank; 0 on an empty histogram. -/
theorem latenciesPercentile_eq_spec (h : UHist) (p : ℚ)
    (hw : histWF h) (hp0 : 0 < p) (hp100 : p ≤ 100) :
    latenciesPercentile h p = specLatenciesPercentile h p := by
  unfold latenciesPercentile specLatenciesPercentile
  rw [percentileWalk_eq_find h _ (sortedKeys h) (sortedKeys_pairwise_lt h hw) 0]
  have : ∀ x ∈ sortedKeys h,
      (fun k => decide (rankOf p (histTotalCount h) ≤ 0 + cumulativeCount h (sortedKeys h) k)) x =
      (fun k => decide (rankOf p (histTotalCount h) ≤ cumulativeCount h (sortedKeys h) k)) x := by
    intro x _
    simp
  rw [find?_congrOn _ _ (sortedKeys h) this]

/-- C2 witness. -/
theorem latenciesPercentile_eq_spec_witness :
    histWF [(5, 2), (3, 1)] ∧ (0 : ℚ) < 50 ∧ (50 : ℚ) ≤ 100 ∧
      latenciesPercentile [(5, 2), (3, 1)] 50 = specLatenciesPercentile [(5, 2), (3, 1)] 50 :=
  ⟨by decide, by norm_num, by norm_num,
    latenciesPercentile_eq_spec [(5, 2), (3, 1)] 50 (by decide) (by norm_num) (by norm_num)⟩

/-! ## Percentile monotonicity (C8) -/

theorem histGet_cons (x : ℕ × ℕ) (xs : UHist) (k : ℕ) :
    histGet (x :: xs) k = (if x.1 = k then x.2 else 0) + histGet xs k := by
  unfold histGet
  by_cases hx : x.1 = k <;> simp [List.filter_cons, hx]

theorem sum_map_histGet (h : UHist) (hw : histWF h) :
    ((histKeys h).map (histGet h)).sum = histTotalCount h := by
  induction h with
  | nil => rfl
  | cons x xs ih =>
    obtain ⟨hnd, hpos⟩ := hw
    have hnotmem : x.1 ∉ histKeys xs := by
      have := List.nodup_cons.mp hnd
      exact this.1
    have hndxs : histWF xs :=
      ⟨(List.nodup_cons.mp hnd).2, fun e he => hpos e (List.mem_cons_of_mem x he)⟩
    have hzero : histGet xs x.1 = 0 := by
      unfold histGet
      have : xs.filter (fun e => decide (e.1 = x.1)) = [] := by
        rw [List.filter_eq_nil]
        intro a ha
        simp only [decide_eq_true_eq]
        intro hcontra
        exact hnotmem (hcontra ▸ List.mem_map_of_mem Prod.fst ha)
      rw [this]; rfl
    have htail : (histKeys xs).map (histGet (x :: xs)) = (histKeys xs).map (histGet xs) := by
      apply List.map_congr_left
      intro k hk
      rw [histGet_cons]
      have : x.1 ≠ k := fun hc => hnotmem (hc ▸ hk)
      simp [this]
    simp only [histKeys, List.map_cons, List.sum_cons, histTotalCount] at *
    rw [histGet_cons, hzero, htail, ih hndxs]
    simp [histTotalCount]

theorem sum_sortedKeys_histGet (h : UHist) (hw : histWF h) :
    ((sortedKeys h).map (histGet h)).sum = histTotalCount h := by
  have hperm : List.Perm ((sortedKeys h).map (histGet h)) ((histKeys h).map (histGet h)) :=
    (sortedKeys_perm h).map (histGet h)
  rw [hperm.sum_eq, sum_map_histGet h hw]

theorem percentileWalk_mem (h : UHist) (rank : ℕ) :
    ∀ (s : List ℕ) (acc : ℕ), rank ≤ acc + (s.map (histGet h)).sum → s ≠ [] →
      percentileWalk h rank s acc ∈ s := by
  intro s
  induction s with
  | nil => intro acc _ hne; exact absurd rfl hne
  | cons k ks ih =>
    intro acc hb _
    unfold percentileWalk
    by_cases hc : rank ≤ acc + histGet h k
    · simp [hc]
    · rw [if_neg hc]
      rcases List.eq_nil_or_concat ks with hnil | _
      · subst hnil
        simp only [List.map_nil, List.sum_nil, List.map_cons, List.sum_cons] at hb
        omega
      · apply List.mem_cons_of_mem
        apply ih (acc + histGet h k) _ (by rintro rfl; simp at hb; omega)
        simp only [List.map_cons, List.sum_cons] at hb
        omega

theorem percentileWalk_mono (h : UHist) :
    ∀ (s : List ℕ), s.Pairwise (· < ·) → ∀ (acc r₁ r₂ : ℕ), r₁ ≤ r₂ →
      r₂ ≤ acc + (s.map (histGet h)).sum →
      percentileWalk h r₁ s acc ≤ percentileWalk h r₂ s acc := by
  intro s
  induction s with
  | nil => intro _ acc r₁ r₂ _ _; exact le_refl _
  | cons k ks ih =>
    intro hs acc r₁ r₂ h12 hb
    have hks : ∀ x ∈ ks, k < x := fun x hx => (List.pairwise_cons.mp hs).1 x hx
    unfold percentileWalk
    by_cases h2 : r₂ ≤ acc + histGet h k
    · have h1 : r₁ ≤ acc + histGet h k := le_trans h12 h2
      simp [h1, h2]
    · rw [if_neg h2]
      by_cases h1 : r₁ ≤ acc + histGet h k
      · rw [if_pos h1]
        have hmem : percentileWalk h r₂ ks (acc + histGet h k) ∈ ks := by
          apply percentileWalk_mem h r₂ ks (acc + histGet h k)
          · simp only [List.map_cons, List.sum_cons] at hb
            omega
          · rintro rfl
            simp only [List.map_cons, List.map_nil, List.sum_cons, List.sum_nil] at hb
            omega
        exact le_of_lt (hks _ hmem)
      · rw [if_neg h1]
        apply ih (List.pairwise_cons.mp hs).2 (acc + histGet h k) r₁ r₂ h12
        simp only [List.map_cons, List.sum_cons] at hb
        omega

theorem rankOf_mono (p₁ p₂ : ℚ) (t : ℕ) (h12 : p₁ ≤ p₂) :
    rankOf p₁ t ≤ rankOf p₂ t := by
  unfold rankOf
  apply Int.toNat_le_toNat
  apply Int.floor_le_floor
  have ht : (0 : ℚ) ≤ (t : ℚ) := by positivity
  have : p₁ / 100 ≤ p₂ / 100 := by linarith
  nlinarith

theorem rankOf_le_total (p : ℚ) (t : ℕ) (hp : p ≤ 100) : rankOf p t ≤ t := by
  unfold rankOf
  have ht : (0 : ℚ) ≤ (t : ℚ) := by positivity
  have h1 : p / 100 * (t : ℚ) ≤ (t : ℚ) := by
    have : p / 100 ≤ 1 := by linarith
    nlinarith
  have h3 : ⌊(t : ℚ) + 1 / 2⌋ = (t : ℤ) := by
    have hcast : ((t : ℚ) + 1 / 2) = ((t : ℤ) : ℚ) + 1 / 2 := by push_cast; ring
    rw [hcast, Int.floor_int_add]
    have : ⌊(1 / 2 : ℚ)⌋ = 0 := by
      rw [Int.floor_eq_iff] <;> norm_num
    omega
  have h2 : ⌊p / 100 * (t : ℚ) + 1 / 2⌋ ≤ (t : ℤ) := by
    rw [← h3]
    exact Int.floor_le_floor (by linarith)
  calc (⌊p / 100 * (t : ℚ) + 1 / 2⌋).toNat ≤ ((t : ℤ)).toNat := Int.toNat_le_toNat h2
    _ = t := Int.toNat_natCast t

/-- C8: percentile values are monotone in the percentile argument: for any
histogram and `0 < p₁ ≤ p₂ ≤ 100`, the key returned at `p₁` never exceeds
the key returned at `p₂`. -/
theorem latenciesPercentile_mono (h : UHist) (p₁ p₂ : ℚ) (hw : histWF h)
    (h0 : 0 < p₁) (h12 : p₁ ≤ p₂) (h100 : p₂ ≤ 100) :
    latenciesPercentile h p₁ ≤ latenciesPercentile h p₂ := by
  unfold latenciesPercentile
  apply percentileWalk_mono h (sortedKeys h) (sortedKeys_pairwise_lt h hw) 0
  · exact rankOf_mono p₁ p₂ _ h12
  · rw [sum_sortedKeys_histGet h hw]
    simpa using rankOf_le_total p₂ _ h100

/-- C8 witness. -/
theorem latenciesPercentile_mono_witness :
    histWF [(5, 2), (3, 1)] ∧ (0 : ℚ) < 50 ∧ (50 : ℚ) ≤ 90 ∧ (90 : ℚ) ≤ 100 ∧
      latenciesPercentile [(5, 2), (3, 1)] 50 ≤ latenciesPercentile [(5, 2), (3, 1)] 90 :=
  ⟨by decide, by norm_num, by norm_num, by norm_num,
    latenciesPercentile_mono [(5, 2), (3, 1)] 50 90 (by decide)
      (by norm_num) (by norm_num) (by norm_num)⟩

/-! ## writeStatistics and performSingleRequest (bombardier.go)

The mutable fields of the `bombardier` struct touched on the request hot
path become a record, and the straight-line bodies become pure state
transformers.  The Go `switch code / 100` is an if-chain over the same
scrutinee. -/

/-- `Histogram.Increment k`: add one to the count stored at key `k`. -/
def histIncrement (h : UHist) (k : ℕ) : UHist :=
  if (histKeys h).contains k then
    h.map (fun e => if e.1 = k then (e.1, e.2 + 1) else e)
  else h ++ [(k, 1)]

/-- Error aggregator: canonical error description to occurrence count. -/
abbrev ErrorMap : Type := List (String × ℕ)

/-- `errorMap.add err`: count one occurrence of an error description. -/
def errorMapAdd (m : ErrorMap) (e : String) : ErrorMap :=
  if (m.map Prod.fst).contains e then
    m.map (fun x => if x.1 = e then (x.1, x.2 + 1) else x)
  else m ++ [(e, 1)]

/-- The request-recording fields of the `bombardier` struct. -/
structure Stats where
  req1xx : ℕ
  req2xx : ℕ
  req3xx : ℕ
  req4xx : ℕ
  req5xx : ℕ
  others : ℕ
  latencies : UHist
  reqs : ℤ
  errors : ErrorMap

/-- `writeStatistics(code, msTaken)`: record latency, bump the rate-meter
request counter, and bump the status bucket selected by `code / 100`. -/
def writeStatistics (s : Stats) (code msTaken : ℕ) : Stats :=
  let s1 : Stats := { s with latencies := histIncrement s.latencies msTaken }
  let s2 : Stats := { s1 with reqs := s1.reqs + 1 }
  if code / 100 = 1 then { s2 with req1xx := s2.req1xx + 1 }
  else if code / 100 = 2 then { s2 with req2xx := s2.req2xx + 1 }
  else if code / 100 = 3 then { s2 with req3xx := s2.req3xx + 1 }
  else if code / 100 = 4 then { s2 with req4xx := s2.req4xx + 1 }
  else if code / 100 = 5 then { s2 with req5xx := s2.req5xx + 1 }
  else { s2 with others := s2.others + 1 }

/-- `performSingleRequest()`: run `client.do()` (its outcome is the
`(code, msTaken, err)` argument), aggregate the error if present, then
record the statistics. -/
def performSingleRequest (s : Stats) (code msTaken : ℕ) (err : Option String) : Stats :=
  let s1 : Stats :=
    match err with
    | some e => { s with errors := errorMapAdd s.errors e }
    | none => s
  writeStatistics s1 code msTaken

/-- Sum of the six status buckets. -/
def bucketSum (s : Stats) : ℕ :=
  s.req1xx + s.req2xx + s.req3xx + s.req4xx + s.req5xx + s.others

/-- C3: one call of writeStatistics increments exactly one status bucket by
one: `req1xx..req5xx` when `code / 100` is 1..5, otherwise `others`; in
particular status 0 lands in `others`. -/
theorem writeStatistics_buckets (s : Stats) (code ms : ℕ) :
    bucketSum (writeStatistics s code ms) = bucketSum s + 1 ∧
    (writeStatistics s code ms).req1xx = s.req1xx + (if code / 100 = 1 then 1 else 0) ∧
    (writeStatistics s code ms).req2xx = s.req2xx + (if code / 100 = 2 then 1 else 0) ∧
    (writeStatistics s code ms).req3xx = s.req3xx + (if code / 100 = 3 then 1 else 0) ∧
    (writeStatistics s code ms).req4xx = s.req4xx + (if code / 100 = 4 then 1 else 0) ∧
    (writeStatistics s code ms).req5xx = s.req5xx + (if code / 100 = 5 then 1 else 0) ∧
    (writeStatistics s code ms).others = s.others +
      (if code / 100 = 1 ∨ code / 100 = 2 ∨ code / 100 = 3 ∨ code / 100 = 4 ∨ code / 100 = 5
        then 0 else 1) ∧
    (writeStatistics s 0 ms).others = s.others + 1 := by
  unfold writeStatistics bucketSum
  norm_num
  split_ifs <;> simp_all <;> omega

/-! ## Recording order (C7)

The side effects of one request outcome, in program order.  In the source,
`performSingleRequest` aggregates the error (when `client.do()` returned
one) and only then calls `writeStatistics`, whose body is the straight-line
sequence latency-histogram, request counter, status bucket. -/

inductive StatAction where
  | incLatency
  | incReqCounter
  | incStatusBucket
  | addError
deriving DecidableEq

/-- The effects of `writeStatistics`, in program order. -/
def writeStatisticsActions : List StatAction :=
  [StatAction.incLatency, StatAction.incReqCounter, StatAction.incStatusBucket]

/-- The effects of `performSingleRequest` after `client.do()` returns, in
program order. -/
def performSingleRequestActions (err : Option String) : List StatAction :=
  (match err with
    | some _ => [StatAction.addError]
    | none => []) ++ writeStatisticsActions

/-- C7 counterexample: on an errored request the error aggregation is not
the last recorded effect (and does not happen inside `writeStatistics`); it
precedes the three `writeStatistics` steps. -/
theorem performSingleRequest_error_not_last :
    performSingleRequestActions (some "timeout") ≠
      [StatAction.incLatency, StatAction.incReqCounter, StatAction.incStatusBucket,
        StatAction.addError] := by
  decide

/-- An all-zero statistics record, as at the start of a bombardment. -/
def statsZero : Stats :=
  { req1xx := 0, req2xx := 0, req3xx := 0, req4xx := 0, req5xx := 0,
    others := 0, latencies := [], reqs := 0, errors := [] }

/-- C7 amended: recording one outcome performs, in order: error aggregation
first (in `performSingleRequest`, only when an error is present), then —
inside `writeStatistics` — latency histogram, global request counter, and
status bucket. -/
theorem performSingleRequest_order (e : String) :
    performSingleRequestActions (some e) =
      StatAction.addError ::
        [StatAction.incLatency, StatAction.incReqCounter, StatAction.incStatusBucket] ∧
    performSingleRequestActions none =
      [StatAction.incLatency, StatAction.incReqCounter, StatAction.incStatusBucket] ∧
    writeStatisticsActions =
      [StatAction.incLatency, StatAction.incReqCounter, StatAction.incStatusBucket] ∧
    performSingleRequest statsZero 200 1000 (some e) =
      writeStatistics { statsZero with errors := [(e, 1)] } 200 1000 := by
  refine ⟨rfl, rfl, rfl, ?_⟩
  unfold performSingleRequest errorMapAdd statsZero
  simp

/-! ## Rate meter (C6)

`rateMeter` is a loop selecting between ticker ticks and the done signal;
it is embedded as a function from the observed event sequence to the
sequence of operations it performs. -/

inductive MeterEvent where
  | tick
  | doneFired
deriving DecidableEq

inductive MeterAction where
  | sampleRps
  | waitWorkers
  | sendToken
deriving DecidableEq

/-- `rateMeter`'s reaction to its incoming events: each tick records one
RPS sample and continues; the done signal makes it wait on the worker
group, record one last sample, send its completion token, and return. -/
def rateMeterRun : List MeterEvent → List MeterAction
  | [] => []
  | MeterEvent.tick :: es => MeterAction.sampleRps :: rateMeterRun es
  | MeterEvent.doneFired :: _ =>
    [MeterAction.waitWorkers, MeterAction.sampleRps, MeterAction.sendToken]

/-- C6 counterexample: when done fires, the rate meter does not drain the
final sample before waiting for the workers; the wait comes first. -/
theorem rateMeter_claim_order_false :
    rateMeterRun [MeterEvent.doneFired] ≠
      [MeterAction.sampleRps, MeterAction.waitWorkers, MeterAction.sendToken] := by
  decide

/-- C6 amended: when the done signal fires (after any number of ticks, each
recording one sample), the rate meter first waits for all workers to have
exited, then drains one final RPS sample, and then terminates by sending
its completion token. -/
theorem rateMeter_done_sequence (n : ℕ) (rest : List MeterEvent) :
    rateMeterRun (List.replicate n MeterEvent.tick ++ MeterEvent.doneFired :: rest) =
      List.replicate n MeterAction.sampleRps ++
        [MeterAction.waitWorkers, MeterAction.sampleRps, MeterAction.sendToken] := by
  induction n with
  | zero => rfl
  | succ m ih => simp only [List.replicate_succ, List.cons_append, rateMeterRun, List.append_eq, ih]

/-! ## Printed mean / standard deviation (C5)

`rpsString` and `latenciesString` accumulate over a histogram snapshot.
The RPS histogram (`float64` keys) is modelled with rational keys; every
rational key is finite, so the source's skip of non-finite keys never
fires in the model.  `math.Sqrt` is not taken: the development works with
the sum of squared deviations and the variance (stddev squared), which
determine the printed stddev. -/

abbrev FHist : Type := List (ℚ × ℕ)

/-- `latenciesString`: `sum += f * c` over the snapshot. -/
def latSum (h : UHist) : ℕ := h.foldl (fun acc e => acc + e.1 * e.2) 0

/-- `latenciesString`: `count := 1`, then `count += c` over the snapshot. -/
def latCount (h : UHist) : ℕ := h.foldl (fun acc e => acc + e.2) 1

/-- `latenciesString`: `if f > max then max = f`, starting from 0. -/
def latMax (h : UHist) : ℕ := h.foldl (fun m e => if m < e.1 then e.1 else m) 0

/-- `mean := float64(sum) / float64(count)`. -/
def latMean (h : UHist) : ℚ := (latSum h : ℚ) / (latCount h : ℚ)

/-- `latenciesString`: second pass, `sumOfSquares += Pow(float64(f)-mean, 2)`. -/
def latSumOfSquares (h : UHist) : ℚ :=
  h.foldl (fun acc e => acc + ((e.1 : ℚ) - latMean h) ^ 2) 0

/-- `stddev := Sqrt(sumOfSquares / float64(count))`; this is the radicand. -/
def latVariance (h : UHist) : ℚ := latSumOfSquares h / (latCount h : ℚ)

/-- `rpsString`: `sum += f * float64(c)` over the snapshot. -/
def rpsSum (h : FHist) : ℚ := h.foldl (fun acc e => acc + e.1 * (e.2 : ℚ)) 0

/-- `rpsString`: `count := 1`, then `count += c` over the snapshot. -/
def rpsCount (h : FHist) : ℕ := h.foldl (fun acc e => acc + e.2) 1

/-- `mean := sum / float64(count)`. -/
def rpsMean (h : FHist) : ℚ := rpsSum h / (rpsCount h : ℚ)

/-- `rpsString`: second pass, `sumOfSquares += Pow(f-mean, 2)`. -/
def rpsSumOfSquares (h : FHist) : ℚ :=
  h.foldl (fun acc e => acc + (e.1 - rpsMean h) ^ 2) 0

/-- `stddev := Sqrt(sumOfSquares / float64(count))`; this is the radicand. -/
def rpsVariance (h : FHist) : ℚ := rpsSumOfSquares h / (rpsCount h : ℚ)

/-- The sum of squared deviations the claim describes: each key weighted by
its count. -/
def claimWeightedLatSS (h : UHist) : ℚ :=
  (h.map (fun e => (e.2 : ℚ) * ((e.1 : ℚ) - latMean h) ^ 2)).sum

/-- C5 counterexample: on the latency histogram {0 ↦ 1, 6 ↦ 3} the code's
sum of squared deviations (one term per distinct key, unweighted) differs
from the count-weighted sum the claim describes, so the printed stddev
differs as well. -/
theorem latSumOfSquares_not_weighted :
    latSumOfSquares [(0, 1), (6, 3)] ≠ claimWeightedLatSS [(0, 1), (6, 3)] := by
  have hm : latMean [(0, 1), (6, 3)] = 18 / 5 := by
    norm_num [latMean, latSum, latCount, List.foldl_cons, List.foldl_nil]
  norm_num [latSumOfSquares, claimWeightedLatSS, hm, List.foldl_cons, List.foldl_nil]

theorem foldl_add_eq_sum {M : Type} [AddCommMonoid M] {α : Type} (f : α → M) :
    ∀ (l : List α) (a : M), l.foldl (fun acc e => acc + f e) a = a + (l.map f).sum := by
  intro l
  induction l with
  | nil => intro a; simp
  | cons x xs ih =>
    intro a
    simp only [List.foldl_cons, List.map_cons, List.sum_cons, ih, add_assoc]

theorem cast_sum_map {α : Type} (f : α → ℕ) :
    ∀ l : List α, (((l.map f).sum : ℕ) : ℚ) = (l.map (fun e => (f e : ℚ))).sum := by
  intro l
  induction l with
  | nil => simp
  | cons x xs ih => simp [ih]

/-- C5 amended: the printed mean is count-weighted with the count
accumulator initialized to 1 (so the denominator is positive even on an
empty histogram, and stddev is defined there), but the sum of squared
deviations is unweighted: each distinct key contributes exactly one
squared deviation, for the latency and the RPS histogram alike. -/
theorem meanStddev_semantics (hl : UHist) (hr : FHist) :
    (latSum hl : ℚ) = (hl.map (fun e => (e.1 : ℚ) * (e.2 : ℚ))).sum ∧
    latCount hl = 1 + (hl.map Prod.snd).sum ∧
    0 < latCount hl ∧
    latMean hl = (latSum hl : ℚ) / (latCount hl : ℚ) ∧
    latSumOfSquares hl = (hl.map (fun e => ((e.1 : ℚ) - latMean hl) ^ 2)).sum ∧
    latVariance hl = latSumOfSquares hl / (latCount hl : ℚ) ∧
    rpsSum hr = (hr.map (fun e => e.1 * (e.2 : ℚ))).sum ∧
    rpsCount hr = 1 + (hr.map Prod.snd).sum ∧
    0 < rpsCount hr ∧
    rpsSumOfSquares hr = (hr.map (fun e => (e.1 - rpsMean hr) ^ 2)).sum := by
  refine ⟨?_, ?_, ?_, rfl, ?_, rfl, ?_, ?_, ?_, ?_⟩
  · unfold latSum
    rw [foldl_add_eq_sum (fun e => e.1 * e.2) hl 0]
    rw [zero_add, cast_sum_map (fun e => e.1 * e.2) hl]
    simp
  · unfold latCount
    rw [foldl_add_eq_sum (fun e => e.2) hl 1]
  · unfold latCount
    rw [foldl_add_eq_sum (fun e => e.2) hl 1]
    omega
  · unfold latSumOfSquares
    rw [foldl_add_eq_sum (fun e => ((e.1 : ℚ) - latMean hl) ^ 2) hl 0, zero_add]
  · unfold rpsSum
    rw [foldl_add_eq_sum (fun e => e.1 * (e.2 : ℚ)) hr 0, zero_add]
  · unfold rpsCount
    rw [foldl_add_eq_sum (fun e => e.2) hr 1]
  · unfold rpsCount
    rw [foldl_add_eq_sum (fun e => e.2) hr 1]
    omega
  · unfold rpsSumOfSquares
    rw [foldl_add_eq_sum (fun e => (e.1 - rpsMean hr) ^ 2) hr 0, zero_add]

/-! ## bombard() and printStats() (C9)

`bombard` is a straight-line orchestration; its observable operations in
program order form a trace parametrized by the number of connections.
`printStats` reports the throughput figure computed from the byte meters
and the recorded `timeTaken`. -/

inductive OrchAction where
  | printIntro
  | startBar
  | captureBegin
  | setRpsStart
  | spawnWorker
  | spawnRateMeter
  | spawnBarUpdater
  | waitWorkers
  | recordTimeTaken
  | recvDoneToken
deriving DecidableEq

/-- The operations of `bombard()` in program order: intro and progress bar,
capture the begin instant and the rate-meter start instant, spawn one
worker per connection, spawn the two observers, wait for the workers,
record `timeTaken`, then receive both completion tokens. -/
def bombardActions (numConns : ℕ) : List OrchAction :=
  [OrchAction.printIntro, OrchAction.startBar, OrchAction.captureBegin,
      OrchAction.setRpsStart] ++
    (List.replicate numConns OrchAction.spawnWorker ++
      [OrchAction.spawnRateMeter, OrchAction.spawnBarUpdater, OrchAction.waitWorkers,
        OrchAction.recordTimeTaken, OrchAction.recvDoneToken, OrchAction.recvDoneToken])

/-- The final fields `printStats` reads for the throughput line. -/
structure BombardierFinal where
  bytesRead : ℤ
  bytesWritten : ℤ
  timeTakenSeconds : ℚ

/-- The throughput figure printed by `printStats`:
`float64(bytesRead+bytesWritten) / timeTaken.Seconds()`. -/
def printStatsThroughput (b : BombardierFinal) : ℚ :=
  ((b.bytesRead + b.bytesWritten : ℤ) : ℚ) / b.timeTakenSeconds

theorem getElem?_replicate_append {α : Type} (a : α) (l : List α) :
    ∀ (n i : ℕ), (List.replicate n a ++ l)[n + i]? = l[i]? := by
  intro n
  induction n with
  | zero => intro i; simp
  | succ m ih =>
    intro i
    have hidx : m + 1 + i = (m + i) + 1 := by omega
    rw [hidx]
    simp only [List.replicate_succ, List.cons_append, List.getElem?_cons_succ]
    exact ih i

/-- C9: the throughput figure equals `(bytes_read + bytes_written) /
elapsed_seconds`, and in `bombard()`'s trace the elapsed time is recorded
exactly once, immediately after the single wait for all workers. -/
theorem printStats_throughput_eq (b : BombardierFinal) (n : ℕ) :
    printStatsThroughput b = ((b.bytesRead : ℚ) + (b.bytesWritten : ℚ)) / b.timeTakenSeconds ∧
    (bombardActions n)[6 + n]? = some OrchAction.waitWorkers ∧
    (bombardActions n)[7 + n]? = some OrchAction.recordTimeTaken ∧
    (bombardActions n).count OrchAction.waitWorkers = 1 ∧
    (bombardActions n).count OrchAction.recordTimeTaken = 1 := by
  refine ⟨?_, ?_, ?_, ?_, ?_⟩
  · unfold printStatsThroughput
    push_cast
    ring
  · unfold bombardActions
    have hidx : 6 + n = (n + 2) + 1 + 1 + 1 + 1 := by omega
    rw [hidx]
    simp only [List.cons_append, List.nil_append, List.getElem?_cons_succ]
    rw [getElem?_replicate_append]
    rfl
  · unfold bombardActions
    have hidx : 7 + n = (n + 3) + 1 + 1 + 1 + 1 := by omega
    rw [hidx]
    simp only [List.cons_append, List.nil_append, List.getElem?_cons_succ]
    rw [getElem?_replicate_append]
    rfl
  · simp [bombardActions, List.count_append, List.count_replicate, List.count_cons]
  · simp [bombardActions, List.count_append, List.count_replicate, List.count_cons]

/-! ## Worker pool in counted mode (C1)

The completion barrier and the rate limiter are repository components not
among the sources at hand; only their call sites in `worker()` are.
Modelled from the spec: the counting barrier keeps an issued and a
completed counter against the target `R`; `try_grab_work` atomically
compares-and-increments issued and succeeds iff `issued < R`; `job_done`
increments completed; the done signal is set exactly when
`completed = R` (no external cancel here); `pace` returns `break` only
when the done signal has fired during its sleep, and `go` otherwise.
Each worker runs the loop of `worker()` from bombardier.go, interleaved
arbitrarily with the others; `client.do()` calls are counted. -/

inductive WPhase where
  | grabbing
  | pacing
  | working
  | finishing
  | exited
deriving DecidableEq

/-- The shared engine state: barrier counters, number of `client.do()`
calls performed so far, and the phase of each worker.  A worker is
`grabbing` before `tryGrabWork`, `pacing` before `ratelimiter.pace`,
`working` before `performSingleRequest`, `finishing` before `jobDone`. -/
structure EngineState where
  issued : ℕ
  completed : ℕ
  doCalls : ℕ
  workers : List WPhase
deriving DecidableEq

/-- One interleaving step of the engine in counted mode with target `R`:
any worker takes the next action of `worker()`'s loop.  `paceBrk` is only
enabled when the counted barrier's done signal has fired, i.e. when the
completed counter equals `R`. -/
inductive WorkerStep (R : ℕ) : EngineState → EngineState → Prop where
  | grabSucc (iss comp dc : ℕ) (l r : List WPhase) :
      iss < R →
      WorkerStep R ⟨iss, comp, dc, l ++ WPhase.grabbing :: r⟩
        ⟨iss + 1, comp, dc, l ++ WPhase.pacing :: r⟩
  | grabFail (iss comp dc : ℕ) (l r : List WPhase) :
      R ≤ iss →
      WorkerStep R ⟨iss, comp, dc, l ++ WPhase.grabbing :: r⟩
        ⟨iss, comp, dc, l ++ WPhase.exited :: r⟩
  | paceGo (iss comp dc : ℕ) (l r : List WPhase) :
      WorkerStep R ⟨iss, comp, dc, l ++ WPhase.pacing :: r⟩
        ⟨iss, comp, dc, l ++ WPhase.working :: r⟩
  | paceBrk (iss dc : ℕ) (l r : List WPhase) :
      WorkerStep R ⟨iss, R, dc, l ++ WPhase.pacing :: r⟩
        ⟨iss, R, dc, l ++ WPhase.exited :: r⟩
  | doRequest (iss comp dc : ℕ) (l r : List WPhase) :
      WorkerStep R ⟨iss, comp, dc, l ++ WPhase.working :: r⟩
        ⟨iss, comp, dc + 1, l ++ WPhase.finishing :: r⟩
  | jobDone (iss comp dc : ℕ) (l r : List WPhase) :
      WorkerStep R ⟨iss, comp, dc, l ++ WPhase.finishing :: r⟩
        ⟨iss, comp + 1, dc, l ++ WPhase.grabbing :: r⟩

/-- The engine as `bombard()` starts it: all counters zero, one worker per
connection, each at the top of its loop. -/
def initEngine (numConns : ℕ) : EngineState :=
  ⟨0, 0, 0, List.replicate numConns WPhase.grabbing⟩

/-- Reachability under arbitrary interleaving. -/
abbrev Reaches (R : ℕ) : EngineState → EngineState → Prop :=
  Relation.ReflTransGen (WorkerStep R)

def countPhase (φ : WPhase) : List WPhase → ℕ
  | [] => 0
  | w :: ws => (if w = φ then 1 else 0) + countPhase φ ws

theorem countPhase_append (φ : WPhase) :
    ∀ l r : List WPhase, countPhase φ (l ++ r) = countPhase φ l + countPhase φ r := by
  intro l r
  induction l with
  | nil => simp [countPhase]
  | cons x xs ih => simp [countPhase, ih]; omega

theorem countPhase_replicate (φ x : WPhase) :
    ∀ n : ℕ, countPhase φ (List.replicate n x) = if x = φ then n else 0 := by
  intro n
  induction n with
  | zero => simp [countPhase]
  | succ m ih => rw [List.replicate_succ]; simp [countPhase, ih]; split_ifs <;> omega

/-- Workers holding grabbed-but-uncompleted units of work. -/
def inflight (s : EngineState) : ℕ :=
  countPhase WPhase.pacing s.workers + countPhase WPhase.working s.workers +
    countPhase WPhase.finishing s.workers

/-- Every worker has returned, so `workers.Wait()` has unblocked. -/
def allExited (s : EngineState) : Prop := ∀ w ∈ s.workers, w = WPhase.exited

/-- Inductive invariant of the counted engine. -/
def EngineInv (R : ℕ) (s : EngineState) : Prop :=
  s.issued ≤ R ∧
  s.issued = s.completed + inflight s ∧
  s.doCalls = s.completed + countPhase WPhase.finishing s.workers ∧
  (allExited s → s.issued = R)

theorem countPhase_eq_zero_of_allExited (φ : WPhase) (hφ : φ ≠ WPhase.exited) :
    ∀ l : List WPhase, (∀ w ∈ l, w = WPhase.exited) → countPhase φ l = 0 := by
  intro l hl
  induction l with
  | nil => rfl
  | cons x xs ih =>
    have hx : x = WPhase.exited := hl x (List.mem_cons_self x xs)
    have : x ≠ φ := fun hc => hφ (hc ▸ hx)
    simp only [countPhase, if_neg this, Nat.zero_add]
    exact ih fun w hw => hl w (List.mem_cons_of_mem x hw)

theorem engineInv_step (R : ℕ) {s s' : EngineState} (hstep : WorkerStep R s s')
    (hinv : EngineInv R s) : EngineInv R s' := by
  obtain ⟨h1, h2, h3, h4⟩ := hinv
  cases hstep with
  | grabSucc iss comp dc l r hlt =>
    simp [EngineInv, inflight, allExited, countPhase_append, countPhase] at *
    refine ⟨by omega, by omega, by omega, ?_⟩
    intro hall
    have := hall WPhase.pacing (by simp)
    exact absurd this (by decide)
  | grabFail iss comp dc l r hge =>
    simp [EngineInv, inflight, allExited, countPhase_append, countPhase] at *
    exact ⟨by omega, by omega, by omega, fun _ => by omega⟩
  | paceGo iss comp dc l r =>
    simp [EngineInv, inflight, allExited, countPhase_append, countPhase] at *
    refine ⟨by omega, by omega, by omega, ?_⟩
    intro hall
    have := hall WPhase.working (by simp)
    exact absurd this (by decide)
  | paceBrk iss dc l r =>
    simp [EngineInv, inflight, allExited, countPhase_append, countPhase] at *
    omega
  | doRequest iss comp dc l r =>
    simp [EngineInv, inflight, allExited, countPhase_append, countPhase] at *
    refine ⟨by omega, by omega, by omega, ?_⟩
    intro hall
    have := hall WPhase.finishing (by simp)
    exact absurd this (by decide)
  | jobDone iss comp dc l r =>
    simp [EngineInv, inflight, allExited, countPhase_append, countPhase] at *
    refine ⟨by omega, by omega, by omega, ?_⟩
    intro hall
    have := hall WPhase.grabbing (by simp)
    exact absurd this (by decide)

theorem engineInv_init (R numConns : ℕ) (hN : 1 ≤ numConns) :
    EngineInv R (initEngine numConns) := by
  refine ⟨Nat.zero_le R, ?_, ?_, ?_⟩
  · simp [initEngine, inflight, countPhase_replicate]
  · simp [initEngine, countPhase_replicate]
  · intro hall
    have hmem : WPhase.grabbing ∈ List.replicate numConns WPhase.grabbing :=
      List.mem_replicate.mpr ⟨by omega, rfl⟩
    exact absurd (hall WPhase.grabbing hmem) (by decide)

theorem engineInv_reaches (R numConns : ℕ) (hN : 1 ≤ numConns) {s : EngineState}
    (h : Reaches R (initEngine numConns) s) : EngineInv R s := by
  induction h with
  | refl => exact engineInv_init R numConns hN
  | tail _ hstep ih => exact engineInv_step R hstep ih

/-- C1: in counted mode with target `R ≥ 1` and any number `N ≥ 1` of
connections, whatever the interleaving and whatever the rate limiter does,
once every worker has returned — the point at which `bombard()`'s
`workers.Wait()` unblocks — exactly `R` calls of `client.do()` have been
performed. -/
theorem bombard_counted_requests (numConns R : ℕ) (hN : 1 ≤ numConns) (hR : 1 ≤ R)
    (s : EngineState) (hreach : Reaches R (initEngine numConns) s)
    (hdone : allExited s) : s.doCalls = R := by
  obtain ⟨h1, h2, h3, h4⟩ := engineInv_reaches R numConns hN hreach
  have hiss : s.issued = R := h4 hdone
  have hpac : countPhase WPhase.pacing s.workers = 0 :=
    countPhase_eq_zero_of_allExited WPhase.pacing (by decide) s.workers hdone
  have hwork : countPhase WPhase.working s.workers = 0 :=
    countPhase_eq_zero_of_allExited WPhase.working (by decide) s.workers hdone
  have hfin : countPhase WPhase.finishing s.workers = 0 :=
    countPhase_eq_zero_of_allExited WPhase.finishing (by decide) s.workers hdone
  unfold inflight at h2
  omega

/-- C1 witness: one worker, one request, run to completion. -/
theorem bombard_counted_requests_witness :
    1 ≤ 1 ∧ allExited ⟨1, 1, 1, [WPhase.exited]⟩ ∧
      (⟨1, 1, 1, [WPhase.exited]⟩ : EngineState).doCalls = 1 := by
  have hchain : Reaches 1 (initEngine 1) ⟨1, 1, 1, [WPhase.exited]⟩ :=
    Relation.ReflTransGen.head (WorkerStep.grabSucc 0 0 0 [] [] (by omega))
      (Relation.ReflTransGen.head (WorkerStep.paceGo 1 0 0 [] [])
        (Relation.ReflTransGen.head (WorkerStep.doRequest 1 0 0 [] [])
          (Relation.ReflTransGen.head (WorkerStep.jobDone 1 0 1 [] [])
            (Relation.ReflTransGen.head (WorkerStep.grabFail 1 1 1 [] [] (by omega))
              Relation.ReflTransGen.refl))))
  refine ⟨le_refl 1, ?_, ?_⟩
  · intro w hw; simpa using hw
  · exact bombard_counted_requests 1 1 (le_refl 1) (le_refl 1) _ hchain
      (fun w hw => by simpa using hw)

/-! ## Client certificate and TLS configuration (C4, C10)

`readClientCert` in client_cert.go scans the PEM blocks of the certificate
file, keeping the last block whose type ends in "PRIVATE KEY" and the last
whose type ends in "CERTIFICATE", and builds the key pair from them.  The
file system and the X509 key-pair constructor are abstracted as function
parameters; alongside its result, the model returns the list of files it
attempted to read.  Modelled from the spec: the error-returning shape of
`generateTLSConfig` consumed by `newBombardier` (bombardier.go lines
91-94) and `checkArgs` — both are repository code not among the sources at
hand (the client_cert.go variant here predates the call site and aborts
the process via `log.Fatalf` instead of returning the error; either way
the certificate-load failure ends construction, modelled as `Except.error`
carrying the logged description). -/

structure PemBlock where
  blockType : String
  contents : String

/-- An abstract `tls.Certificate` as produced by `tls.X509KeyPair`. -/
structure GoCert where
  certPem : Option String
  keyPem : Option String

/-- The loop of `readClientCert`: later matching blocks overwrite earlier
ones. -/
def lastBlockWithSuffix (blocks : List PemBlock) (suffix : String) : Option String :=
  blocks.foldl (fun acc b => if b.blockType.endsWith suffix then some b.contents else acc) none

/-- `readClientCert(filename)`: empty filename means no client certificate
and no file access; otherwise read and PEM-scan the file and build the key
pair, failing with the logged description on an unreadable file or an
invalid certificate/key pair.  The second component lists the file reads
attempted. -/
def readClientCert (fs : String → Except String (List PemBlock))
    (x509KeyPair : Option String → Option String → Except String GoCert)
    (filename : String) : Except String (List GoCert) × List String :=
  if filename = "" then (Except.ok [], [])
  else
    match fs filename with
    | Except.error e =>
      (Except.error ("failed to read client certificate file: " ++ e), [filename])
    | Except.ok blocks =>
      match x509KeyPair (lastBlockWithSuffix blocks "CERTIFICATE")
          (lastBlockWithSuffix blocks "PRIVATE KEY") with
      | Except.error e =>
        (Except.error ("unable to load client cert and key pair: " ++ e), [filename])
      | Except.ok cert => (Except.ok [cert], [filename])

/-- The `tls.Config` fields `generateTLSConfig` populates. -/
structure GoTLSConfig where
  insecureSkipVerify : Bool
  certificates : List GoCert

/-- The configuration fields consumed by the embedded constructors. -/
structure config where
  url : String
  method : String
  body : String
  bodyFilePath : String
  stream : Bool
  numConns : ℕ
  numReqs : Option ℕ
  duration : Option ℕ
  rate : Option ℕ
  timeout : ℕ
  clientCert : String
  insecure : Bool
  printLatencies : Bool

/-- `generateTLSConfig(c)`: a `tls.Config` with the configured
insecure-skip-verify flag and the client certificates loaded from
`c.clientCert`. -/
def generateTLSConfig (fs : String → Except String (List PemBlock))
    (x509KeyPair : Option String → Option String → Except String GoCert)
    (c : config) : Except String GoTLSConfig × List String :=
  match readClientCert fs x509KeyPair c.clientCert with
  | (Except.error e, reads) => (Except.error e, reads)
  | (Except.ok certs, reads) =>
    (Except.ok { insecureSkipVerify := c.insecure, certificates := certs }, reads)

/-- Modelled from the spec: `config.checkArgs` — a URL must be present,
exactly one of request count and duration must be set (positive when set),
the connection count is at least 1, the timeout is positive, and a rate
cap is positive when set. -/
def checkArgs (c : config) : Bool :=
  decide (c.url ≠ "") &&
  (c.numReqs.isSome ^^ c.duration.isSome) &&
  decide (1 ≤ c.numConns) &&
  decide (0 < c.timeout) &&
  (match c.numReqs with
    | some r => decide (1 ≤ r)
    | none => true) &&
  (match c.duration with
    | some d => decide (0 < d)
    | none => true) &&
  (match c.rate with
    | some q => decide (0 < q)
    | none => true)

/-- Modelled from the spec: the two completion-barrier variants. -/
inductive BarrierKind where
  | counting (target : ℕ)
  | timed (duration : ℕ)

/-- Modelled from the spec: the two limiter variants. -/
inductive LimiterKind where
  | bucket (rate : ℕ)
  | noop

/-- The `clientOpts` handed to `makeHTTPClient`. -/
structure clientOpts where
  maxConns : ℕ
  timeout : ℕ
  tlsConfig : GoTLSConfig
  url : String
  method : String
  body : Option String

/-- The constructed bombardier: its client exists only on this success
value, so `client.do()` cannot be called when construction fails. -/
structure bombardierModel where
  conf : config
  barrier : BarrierKind
  limiter : LimiterKind
  tlsConfig : GoTLSConfig
  client : clientOpts

/-- `newBombardier(c)` up to client construction: validate the arguments,
pick the barrier and limiter, generate the TLS configuration —
returning its error, before any client exists, when certificate loading
fails — then resolve the request body and build the client options. -/
def newBombardier (fs : String → Except String (List PemBlock))
    (x509KeyPair : Option String → Option String → Except String GoCert)
    (bodyFile : String → Except String String)
    (c : config) : Except String bombardierModel :=
  if checkArgs c = false then Except.error "invalid arguments"
  else
    let barrier := match c.numReqs with
      | some r => BarrierKind.counting r
      | none => BarrierKind.timed (c.duration.getD 0)
    let limiter := match c.rate with
      | some q => LimiterKind.bucket q
      | none => LimiterKind.noop
    match (generateTLSConfig fs x509KeyPair c).1 with
    | Except.error e => Except.error e
    | Except.ok tlsConf =>
      let bodyRes : Except String (Option String) :=
        if c.stream then Except.ok none
        else if c.bodyFilePath ≠ "" then (bodyFile c.bodyFilePath).map some
        else Except.ok (some c.body)
      match bodyRes with
      | Except.error e => Except.error e
      | Except.ok pbody =>
        Except.ok
          { conf := c, barrier := barrier, limiter := limiter, tlsConfig := tlsConf,
            client :=
              { maxConns := c.numConns, timeout := c.timeout, tlsConfig := tlsConf,
                url := c.url, method := c.method, body := pbody } }

/-- C4: when certificate loading fails on a well-formed configuration,
`newBombardier` returns exactly the certificate-load error, and no
bombardier — hence no client on which `do()` could be called — is ever
constructed. -/
theorem newBombardier_certLoadError (fs : String → Except String (List PemBlock))
    (x509KeyPair : Option String → Option String → Except String GoCert)
    (bodyFile : String → Except String String) (c : config) (e : String)
    (hargs : checkArgs c = true)
    (hcert : (generateTLSConfig fs x509KeyPair c).1 = Except.error e) :
    newBombardier fs x509KeyPair bodyFile c = Except.error e ∧
    ∀ b : bombardierModel, newBombardier fs x509KeyPair bodyFile c ≠ Except.ok b := by
  have h1 : newBombardier fs x509KeyPair bodyFile c = Except.error e := by
    unfold newBombardier
    rw [hargs]
    simp only [Bool.true_eq_false, if_false]
    rw [hcert]
  refine ⟨h1, fun b hb => ?_⟩
  rw [h1] at hb
  exact Except.noConfusion hb

/-- A counted-mode configuration with a client-certificate path set. -/
def certExampleConfig : config :=
  { url := "http://localhost:8080", method := "GET", body := "", bodyFilePath := "",
    stream := false, numConns := 10, numReqs := some 100, duration := none, rate := none,
    timeout := 2, clientCert := "cert.pem", insecure := false, printLatencies := false }

/-- C4 witness: an unreadable certificate file. -/
theorem newBombardier_certLoadError_witness :
    checkArgs certExampleConfig = true ∧
    (generateTLSConfig (fun _ => Except.error "no such file")
        (fun _ _ => Except.error "bad pair") certExampleConfig).1 =
      Except.error "failed to read client certificate file: no such file" ∧
    newBombardier (fun _ => Except.error "no such file") (fun _ _ => Except.error "bad pair")
        (fun _ => Except.ok "") certExampleConfig =
      Except.error "failed to read client certificate file: no such file" :=
  ⟨rfl, rfl,
    (newBombardier_certLoadError (fun _ => Except.error "no such file")
      (fun _ _ => Except.error "bad pair") (fun _ => Except.ok "") certExampleConfig
      "failed to read client certificate file: no such file" rfl rfl).1⟩

/-- C10: with an empty client-certificate path, `generateTLSConfig` returns
the TLS configuration with no certificates and with `InsecureSkipVerify`
equal to the configured insecure flag, and attempts no file read. -/
theorem generateTLSConfig_emptyClientCert (fs : String → Except String (List PemBlock))
    (x509KeyPair : Option String → Option String → Except String GoCert)
    (c : config) (hcc : c.clientCert = "") :
    generateTLSConfig fs x509KeyPair c =
      (Except.ok { insecureSkipVerify := c.insecure, certificates := [] }, []) := by
  unfold generateTLSConfig readClientCert
  rw [hcc]
  simp

/-- The certificate-free variant of the example configuration. -/
def noCertExampleConfig : config :=
  { certExampleConfig with clientCert := "", insecure := true }

/-- C10 witness. -/
theorem generateTLSConfig_emptyClientCert_witness :
    noCertExampleConfig.clientCert = "" ∧
    generateTLSConfig (fun _ => Except.error "no such file")
        (fun _ _ => Except.error "bad pair") noCertExampleConfig =
      (Except.ok { insecureSkipVerify := true, certificates := [] }, []) :=
  ⟨rfl,
    generateTLSConfig_emptyClientCert (fun _ => Except.error "no such file")
      (fun _ _ => Except.error "bad pair") noCertExampleConfig rfl⟩
